import Mathlib

/-!
Verification of the sparse-matrix engine (`src/SparseMatrix.js`).

Shallow embedding of the JavaScript class `SparseMatrix`.  A JS `Map` keyed by
the string `` `${row},${col}` `` is modelled as an association list
`List ((Int × Int) × Int)` kept in insertion order: `Map.set` replaces the
value in place when the key is present and appends otherwise, `Map.delete`
removes the (unique) occurrence, exactly as the operations below do on lists
whose keys are unique (a structural invariant of every JS `Map`).
Numbers are modelled as `Int` (the repository only deals in signed integers).
Fallible code (`throw new Error(...)`) is modelled with `Except String`.
-/

namespace SpMat

/-- A stored entry: composite key `(row, col)` and its value. -/
abbrev Entry := (Int × Int) × Int

/-- JS `Map.get` on the backing store: first (unique) binding of the key. -/
def alGet {α : Type} : List ((Int × Int) × α) → (Int × Int) → Option α
  | [], _ => none
  | e :: es, k => if e.1 = k then some e.2 else alGet es k

/-- JS `Map.set`: replace the binding in place if present, else append. -/
def alSet {α : Type} : List ((Int × Int) × α) → (Int × Int) → α → List ((Int × Int) × α)
  | [], k, v => [(k, v)]
  | e :: es, k, v => if e.1 = k then (k, v) :: es else e :: alSet es k v

/-- JS `Map.delete`: drop the (unique) binding of the key. -/
def alDel {α : Type} : List ((Int × Int) × α) → (Int × Int) → List ((Int × Int) × α)
  | [], _ => []
  | e :: es, k => if e.1 = k then es else e :: alDel es k

/-- JS `Map.get` and `Map.set` on the inner maps of the column index, keyed by a
single integer. -/
def ilGet {α : Type} : List (Int × α) → Int → Option α
  | [], _ => none
  | e :: es, k => if e.1 = k then some e.2 else ilGet es k

/-- JS `Map.set` on integer-keyed maps. -/
def ilSet {α : Type} : List (Int × α) → Int → α → List (Int × α)
  | [], k, v => [(k, v)]
  | e :: es, k, v => if e.1 = k then (k, v) :: es else e :: ilSet es k v

/-- The state of a `SparseMatrix` object: declared dimensions and the element
map in insertion order. -/
structure SparseMatrix where
  rows : Int
  cols : Int
  elements : List Entry
deriving DecidableEq, Repr

namespace SparseMatrix

/-- Method `getElement(row, col)`: the stored value, or `0` when the key is absent.
(The JS `get(key) || 0` agrees with this for every integer value: for a stored
`v ≠ 0` it returns `v`, and `0 || 0` is `0`.) -/
def getElement (M : SparseMatrix) (row col : Int) : Int :=
  (alGet M.elements (row, col)).getD 0

/-- Method `setElement(row, col, value)`: store nonzero values, delete the key on
zero. -/
def setElement (M : SparseMatrix) (row col value : Int) : SparseMatrix :=
  if value ≠ 0 then { M with elements := alSet M.elements (row, col) value }
  else { M with elements := alDel M.elements (row, col) }

/-- Constructor `new SparseMatrix` on an object input: the code's
`input.rows && input.cols` truthiness test rejects a zero dimension
(`0` is falsy in JS) with `Error("Invalid input")`. -/
def mkFromDims (rows cols : Int) : Except String SparseMatrix :=
  if rows ≠ 0 ∧ cols ≠ 0 then .ok { rows := rows, cols := cols, elements := [] }
  else .error "Invalid input"

end SparseMatrix

/-- The successive values of a JS counter `for (i = 0; i < bound; i++)`. -/
def intRangeLt (bound : Int) : List Int :=
  (List.range bound.toNat).map Nat.cast

/-- The successive values of a JS counter `for (i = 0; i <= bound; i++)`. -/
def intRangeLe (bound : Int) : List Int :=
  (List.range (bound + 1).toNat).map Nat.cast

namespace SparseMatrix

/-- The dense double loop shared by `add` and `subtract`: for every scanned
coordinate compute `f row col` and store it through `setElement` when it is
nonzero. -/
def denseAccum (f : Int → Int → Int) (rowRange colRange : List Int)
    (init : SparseMatrix) : SparseMatrix :=
  rowRange.foldl (fun res row =>
    colRange.foldl (fun res col =>
      let s := f row col
      if s ≠ 0 then res.setElement row col s else res) res) init

/-- Method `add(other)`: dimension guard, fresh result via the constructor, then the
dense loop `for (row = 0; row <= this.rows; row++)` /
`for (col = 0; col <= this.cols; col++)` storing nonzero sums.  Note both
loop bounds are inclusive in the source. -/
def add (A B : SparseMatrix) : Except String SparseMatrix :=
  if A.rows ≠ B.rows ∨ A.cols ≠ B.cols then
    .error "Matrix dimensions do not match for addition"
  else
    (mkFromDims A.rows A.cols).map
      (denseAccum (fun row col => A.getElement row col + B.getElement row col)
        (intRangeLe A.rows) (intRangeLe A.cols))

/-- Method `subtract(other)`: same shape as `add` but with exclusive loop bounds
(`row < this.rows`, `col < this.cols`) and differences. -/
def subtract (A B : SparseMatrix) : Except String SparseMatrix :=
  if A.rows ≠ B.rows ∨ A.cols ≠ B.cols then
    .error "Matrix dimensions do not match for subtraction"
  else
    (mkFromDims A.rows A.cols).map
      (denseAccum (fun row col => A.getElement row col - B.getElement row col)
        (intRangeLt A.rows) (intRangeLt A.cols))

/-- The column-indexed view of `other` built at the top of `multiply`:
`Map` from column index to a `Map` from row index to value, filled by one
pass over `other.elements`. -/
def buildColumnIndex (B : SparseMatrix) : List (Int × List (Int × Int)) :=
  B.elements.foldl (fun m e =>
    let row := e.1.1
    let col := e.1.2
    let m1 := if (ilGet m col).isSome then m else ilSet m col ([] : List (Int × Int))
    match ilGet m1 col with
    | some inner => ilSet m1 col (ilSet inner row e.2)
    | none => m1) []

/-- The result update of one inner-loop iteration of `multiply`: when the
column index holds `col2` and that column holds `col1`, accumulate
`value1 * value2` into `result[row1][col2]` — but, exactly as the source
does, skip the write when the accumulated value is `0` (instead of letting
`setElement` delete the key). -/
def mulRes (colIdx : List (Int × List (Int × Int))) (row1 col1 value1 : Int)
    (res : SparseMatrix) (col2 : Int) : SparseMatrix :=
  match ilGet colIdx col2 with
  | some column =>
    match ilGet column col1 with
    | some value2 =>
      if res.getElement row1 col2 + value1 * value2 ≠ 0 then
        res.setElement row1 col2 (res.getElement row1 col2 + value1 * value2)
      else res
    | none => res
  | none => res

/-- The progress-callback check at the end of one inner-loop iteration:
`if (progressCallback && operationsPerformed % 1000000 === 0)` record an
invocation carrying `(operationsPerformed, totalOperations)` — the pair whose
quotient JS would pass to the callback. -/
def mulLog (hasCb : Bool) (total : Int) (ops1 : Nat) (log : List (Nat × Int)) :
    List (Nat × Int) :=
  if hasCb ∧ ops1 % 1000000 = 0 then log ++ [(ops1, total)] else log

/-- One iteration of the inner `for (col2 = 0; col2 < other.cols; col2++)`
loop of `multiply`.  The state is `(result, operationsPerformed, log)`;
`hasCb` tells whether a `progressCallback` argument was supplied. -/
def mulInner (colIdx : List (Int × List (Int × Int))) (hasCb : Bool) (total : Int)
    (row1 col1 value1 : Int) (st : SparseMatrix × Nat × List (Nat × Int))
    (col2 : Int) : SparseMatrix × Nat × List (Nat × Int) :=
  (mulRes colIdx row1 col1 value1 st.1 col2, st.2.1 + 1,
    mulLog hasCb total (st.2.1 + 1) st.2.2)

/-- The nested loops of `multiply`: for each stored entry `(row1, col1, v1)`
of `this`, scan every column of `other`. -/
def mulLoop (A B : SparseMatrix) (hasCb : Bool) (res0 : SparseMatrix) :
    SparseMatrix × Nat × List (Nat × Int) :=
  A.elements.foldl (fun st e =>
    (intRangeLt B.cols).foldl
      (mulInner (buildColumnIndex B) hasCb ((A.elements.length : Int) * B.cols)
        e.1.1 e.1.2 e.2) st)
    (res0, 0, [])

/-- Method `multiply(other, progressCallback)`: inner-dimension guard, fresh result
via the constructor, column index, then the nested loops.  Returns the result
together with the log of progress-callback invocations. -/
def multiplyP (A B : SparseMatrix) (hasCb : Bool) :
    Except String (SparseMatrix × List (Nat × Int)) :=
  if A.cols ≠ B.rows then
    .error "Matrix dimensions are not compatible for multiplication"
  else
    (mkFromDims A.rows B.cols).map (fun res0 =>
      ((mulLoop A B hasCb res0).1, (mulLoop A B hasCb res0).2.2))

/-- Method `multiply(other)` with the callback omitted. -/
def multiply (A B : SparseMatrix) : Except String SparseMatrix :=
  (multiplyP A B false).map Prod.fst

/-- Keys of the element map are pairwise distinct — a structural invariant of
every JS `Map`. -/
abbrev KeysNodup (M : SparseMatrix) : Prop := (M.elements.map Prod.fst).Nodup

/-- Invariant I1 of the spec: no stored value is zero (maintained by
`setElement`, the sole mutator). -/
abbrev ValuesNonzero (M : SparseMatrix) : Prop := ∀ e ∈ M.elements, e.2 ≠ 0

/-- All stored keys lie inside the declared dimensions. -/
abbrev InBounds (M : SparseMatrix) : Prop :=
  ∀ e ∈ M.elements, 0 ≤ e.1.1 ∧ e.1.1 < M.rows ∧ 0 ≤ e.1.2 ∧ e.1.2 < M.cols

end SparseMatrix

theorem alGet_alSet_self {α : Type} (l : List ((Int × Int) × α)) (k : Int × Int) (v : α) :
    alGet (alSet l k v) k = some v := by
  induction l with
  | nil => simp [alGet, alSet]
  | cons e es ih =>
    by_cases h : e.1 = k <;> simp [alGet, alSet, h, ih]

theorem alGet_alSet_ne {α : Type} (l : List ((Int × Int) × α)) (k k' : Int × Int) (v : α)
    (h : k' ≠ k) : alGet (alSet l k v) k' = alGet l k' := by
  induction l with
  | nil =>
    have hk : ¬ k = k' := fun he => h he.symm
    simp [alGet, alSet, hk]
  | cons e es ih =>
    by_cases he : e.1 = k
    · subst he
      simp [alGet, alSet, Ne.symm h]
    · simp only [alSet, if_neg he, alGet]
      by_cases he' : e.1 = k' <;> simp [he', ih]

theorem alGet_alDel_ne {α : Type} (l : List ((Int × Int) × α)) (k k' : Int × Int)
    (h : k' ≠ k) : alGet (alDel l k) k' = alGet l k' := by
  induction l with
  | nil => simp [alDel]
  | cons e es ih =>
    by_cases he : e.1 = k
    · subst he
      simp [alDel, alGet, Ne.symm h]
    · simp only [alDel, if_neg he, alGet]
      by_cases he' : e.1 = k' <;> simp [he', ih]

theorem mem_alSet {α : Type} (l : List ((Int × Int) × α)) (k : Int × Int) (v : α)
    (x : (Int × Int) × α) (hx : x ∈ alSet l k v) : x = (k, v) ∨ x ∈ l := by
  induction l with
  | nil => simpa [alSet] using hx
  | cons e es ih =>
    by_cases he : e.1 = k
    · rw [alSet, if_pos he] at hx
      rcases List.mem_cons.1 hx with h | h
      · exact Or.inl h
      · exact Or.inr (List.mem_cons_of_mem _ h)
    · rw [alSet, if_neg he] at hx
      rcases List.mem_cons.1 hx with h | h
      · exact Or.inr (h ▸ List.mem_cons_self _ _)
      · rcases ih h with h' | h'
        · exact Or.inl h'
        · exact Or.inr (List.mem_cons_of_mem _ h')

theorem mem_alDel {α : Type} (l : List ((Int × Int) × α)) (k : Int × Int)
    (x : (Int × Int) × α) (hx : x ∈ alDel l k) : x ∈ l := by
  induction l with
  | nil => simp [alDel] at hx
  | cons e es ih =>
    by_cases he : e.1 = k
    · rw [alDel, if_pos he] at hx
      exact List.mem_cons_of_mem _ hx
    · rw [alDel, if_neg he] at hx
      rcases List.mem_cons.1 hx with h | h
      · exact h ▸ List.mem_cons_self _ _
      · exact List.mem_cons_of_mem _ (ih h)

theorem alSet_of_alGet_none {α : Type} (l : List ((Int × Int) × α)) (k : Int × Int) (v : α)
    (h : alGet l k = none) : alSet l k v = l ++ [(k, v)] := by
  induction l with
  | nil => simp [alSet]
  | cons e es ih =>
    by_cases he : e.1 = k
    · rw [alGet, if_pos he] at h
      cases h
    · rw [alGet, if_neg he] at h
      simp [alSet, he, ih h]

theorem alGet_eq_some_mem {α : Type} (l : List ((Int × Int) × α)) (k : Int × Int) (v : α)
    (h : alGet l k = some v) : (k, v) ∈ l := by
  induction l with
  | nil => simp [alGet] at h
  | cons e es ih =>
    by_cases he : e.1 = k
    · rw [alGet, if_pos he] at h
      cases h
      have hke : (k, e.2) = e := by rw [← he]
      rw [hke]
      exact List.mem_cons_self _ _
    · rw [alGet, if_neg he] at h
      exact List.mem_cons_of_mem _ (ih h)

theorem alGet_of_mem_nodup {α : Type} (l : List ((Int × Int) × α)) (k : Int × Int) (v : α)
    (hnd : (l.map Prod.fst).Nodup) (h : (k, v) ∈ l) : alGet l k = some v := by
  induction l with
  | nil => simp at h
  | cons e es ih =>
    rw [List.map_cons, List.nodup_cons] at hnd
    rcases List.mem_cons.1 h with h' | h'
    · rw [alGet, if_pos (by rw [← h'])]
      rw [← h']
    · have hk : e.1 ≠ k := by
        intro he
        exact hnd.1 (he ▸ List.mem_map_of_mem Prod.fst h')
      rw [alGet, if_neg hk]
      exact ih hnd.2 h'

theorem alGet_append_none {α : Type} (l1 l2 : List ((Int × Int) × α)) (k : Int × Int)
    (h : alGet l1 k = none) : alGet (l1 ++ l2) k = alGet l2 k := by
  induction l1 with
  | nil => simp
  | cons e es ih =>
    by_cases he : e.1 = k
    · rw [alGet, if_pos he] at h
      cases h
    · rw [alGet, if_neg he] at h
      rw [List.cons_append, alGet, if_neg he]
      exact ih h

theorem alGet_alDel_self {α : Type} (l : List ((Int × Int) × α)) (k : Int × Int)
    (hnd : (l.map Prod.fst).Nodup) : alGet (alDel l k) k = none := by
  induction l with
  | nil => simp [alDel, alGet]
  | cons e es ih =>
    rw [List.map_cons, List.nodup_cons] at hnd
    by_cases he : e.1 = k
    · rw [alDel, if_pos he]
      cases hget : alGet es k with
      | none => rfl
      | some v =>
        exact absurd (he ▸ List.mem_map_of_mem Prod.fst (alGet_eq_some_mem es k v hget))
          hnd.1
    · rw [alDel, if_neg he, alGet, if_neg he]
      exact ih hnd.2

namespace SparseMatrix

theorem rows_setElement (M : SparseMatrix) (r c v : Int) :
    (M.setElement r c v).rows = M.rows := by
  rw [setElement]
  split <;> rfl

theorem cols_setElement (M : SparseMatrix) (r c v : Int) :
    (M.setElement r c v).cols = M.cols := by
  rw [setElement]
  split <;> rfl

theorem getElement_setElement_self (M : SparseMatrix) (p : Int × Int) (v : Int)
    (hv : v ≠ 0) : (M.setElement p.1 p.2 v).getElement p.1 p.2 = v := by
  rw [setElement, if_pos hv, getElement]
  show (alGet (alSet M.elements (p.1, p.2) v) (p.1, p.2)).getD 0 = v
  rw [alGet_alSet_self]
  rfl

theorem getElement_setElement_ne (M : SparseMatrix) (p q : Int × Int) (v : Int)
    (h : q ≠ p) : (M.setElement p.1 p.2 v).getElement q.1 q.2 = M.getElement q.1 q.2 := by
  rw [setElement]
  split
  · show (alGet (alSet M.elements (p.1, p.2) v) (q.1, q.2)).getD 0 = _
    rw [alGet_alSet_ne _ _ _ _ (by simpa using h)]
    rfl
  · show (alGet (alDel M.elements (p.1, p.2)) (q.1, q.2)).getD 0 = _
    rw [alGet_alDel_ne _ _ _ (by simpa using h)]
    rfl

theorem mem_setElement (M : SparseMatrix) (r c v : Int) (x : Entry)
    (hx : x ∈ (M.setElement r c v).elements) : x = ((r, c), v) ∨ x ∈ M.elements := by
  rw [setElement] at hx
  split at hx
  · exact mem_alSet _ _ _ _ hx
  · exact Or.inr (mem_alDel _ _ _ hx)

/-- The body of the dense double loop of `add`/`subtract`, acting on one
scanned coordinate. -/
def accumStep (f : Int → Int → Int) (res : SparseMatrix) (p : Int × Int) : SparseMatrix :=
  if f p.1 p.2 ≠ 0 then res.setElement p.1 p.2 (f p.1 p.2) else res

/-- The scanned coordinates, row-major. -/
def scanPairs (rowRange colRange : List Int) : List (Int × Int) :=
  rowRange.flatMap (fun r => colRange.map (fun c => (r, c)))

theorem denseAccum_eq_foldl (f : Int → Int → Int) (rs cs : List Int) (init : SparseMatrix) :
    denseAccum f rs cs init = (scanPairs rs cs).foldl (accumStep f) init := by
  induction rs generalizing init with
  | nil => rfl
  | cons r rs ih =>
    rw [scanPairs, List.flatMap_cons, List.foldl_append, List.foldl_map]
    exact ih _

theorem mem_scanPairs (rs cs : List Int) (q : Int × Int) :
    q ∈ scanPairs rs cs ↔ q.1 ∈ rs ∧ q.2 ∈ cs := by
  constructor
  · intro h
    rcases List.mem_flatMap.1 h with ⟨r, hr, hq⟩
    rcases List.mem_map.1 hq with ⟨c, hc, hq⟩
    rw [← hq]
    exact ⟨hr, hc⟩
  · rintro ⟨h1, h2⟩
    exact List.mem_flatMap.2 ⟨q.1, h1, List.mem_map.2 ⟨q.2, h2, rfl⟩⟩

theorem getElement_foldl_accumStep (f : Int → Int → Int) (L : List (Int × Int))
    (init : SparseMatrix) (q : Int × Int) :
    ((L.foldl (accumStep f) init).getElement q.1 q.2) =
      if q ∈ L ∧ f q.1 q.2 ≠ 0 then f q.1 q.2 else init.getElement q.1 q.2 := by
  induction L generalizing init with
  | nil => simp
  | cons p t ih =>
    rw [List.foldl_cons, ih]
    by_cases hqt : q ∈ t ∧ f q.1 q.2 ≠ 0
    · rw [if_pos hqt, if_pos ⟨List.mem_cons_of_mem _ hqt.1, hqt.2⟩]
    · rw [if_neg hqt]
      by_cases hpq : q = p
      · subst hpq
        by_cases hf : f q.1 q.2 ≠ 0
        · rw [if_pos ⟨List.mem_cons_self _ _, hf⟩, accumStep, if_pos hf]
          exact getElement_setElement_self init q _ hf
        · push_neg at hf
          rw [if_neg (by simp [hf]), accumStep, if_neg (by simp [hf])]
      · have : ¬ (q ∈ p :: t ∧ f q.1 q.2 ≠ 0) := by
          intro ⟨hmem, hf⟩
          rcases List.mem_cons.1 hmem with h | h
          · exact hpq h
          · exact hqt ⟨h, hf⟩
        rw [if_neg this, accumStep]
        split
        · exact getElement_setElement_ne init p q _ hpq
        · rfl

theorem mem_foldl_accumStep (f : Int → Int → Int) (L : List (Int × Int))
    (init : SparseMatrix) (x : Entry)
    (hx : x ∈ (L.foldl (accumStep f) init).elements) :
    x ∈ init.elements ∨ (x.1 ∈ L ∧ x.2 = f x.1.1 x.1.2 ∧ x.2 ≠ 0) := by
  induction L generalizing init with
  | nil => exact Or.inl hx
  | cons p t ih =>
    rw [List.foldl_cons] at hx
    rcases ih _ hx with h | h
    · rw [accumStep] at h
      split at h
      · rcases mem_setElement _ _ _ _ _ h with h' | h'
        · right
          subst h'
          exact ⟨List.mem_cons_self _ _, rfl, by assumption⟩
        · exact Or.inl h'
      · exact Or.inl h
    · exact Or.inr ⟨List.mem_cons_of_mem _ h.1, h.2⟩

theorem rows_foldl_accumStep (f : Int → Int → Int) (L : List (Int × Int))
    (init : SparseMatrix) : (L.foldl (accumStep f) init).rows = init.rows := by
  induction L generalizing init with
  | nil => rfl
  | cons p t ih =>
    rw [List.foldl_cons, ih, accumStep]
    split
    · exact rows_setElement _ _ _ _
    · rfl

theorem cols_foldl_accumStep (f : Int → Int → Int) (L : List (Int × Int))
    (init : SparseMatrix) : (L.foldl (accumStep f) init).cols = init.cols := by
  induction L generalizing init with
  | nil => rfl
  | cons p t ih =>
    rw [List.foldl_cons, ih, accumStep]
    split
    · exact cols_setElement _ _ _ _
    · rfl

end SparseMatrix

theorem alGet_eq_none_iff {α : Type} (l : List ((Int × Int) × α)) (k : Int × Int) :
    alGet l k = none ↔ ∀ x ∈ l, x.1 ≠ k := by
  induction l with
  | nil => simp [alGet]
  | cons e es ih =>
    by_cases he : e.1 = k
    · rw [alGet, if_pos he]
      simp only [List.mem_cons]
      constructor
      · intro h
        cases h
      · intro h
        exact absurd he (h e (Or.inl rfl))
    · rw [alGet, if_neg he, ih]
      simp only [List.mem_cons]
      constructor
      · intro h x hx
        rcases hx with hx | hx
        · rw [hx]
          exact he
        · exact h x hx
      · intro h x hx
        exact h x (Or.inr hx)

theorem mem_intRangeLt (b n : Int) : n ∈ intRangeLt b ↔ 0 ≤ n ∧ n < b := by
  unfold intRangeLt
  rw [List.mem_map]
  constructor
  · rintro ⟨m, hm, rfl⟩
    rw [List.mem_range] at hm
    omega
  · intro h
    exact ⟨n.toNat, List.mem_range.2 (by omega), by omega⟩

theorem mem_intRangeLe (b n : Int) : n ∈ intRangeLe b ↔ 0 ≤ n ∧ n ≤ b := by
  unfold intRangeLe
  rw [List.mem_map]
  constructor
  · rintro ⟨m, hm, rfl⟩
    rw [List.mem_range] at hm
    omega
  · intro h
    exact ⟨n.toNat, List.mem_range.2 (by omega), by omega⟩

namespace SparseMatrix

theorem add_ok (A B R : SparseMatrix) (h : A.add B = .ok R) :
    A.rows = B.rows ∧ A.cols = B.cols ∧ A.rows ≠ 0 ∧ A.cols ≠ 0 ∧
    R = denseAccum (fun row col => A.getElement row col + B.getElement row col)
      (intRangeLe A.rows) (intRangeLe A.cols)
      { rows := A.rows, cols := A.cols, elements := [] } := by
  rw [add] at h
  split at h
  · cases h
  · next hdim =>
    push_neg at hdim
    rw [mkFromDims] at h
    split at h
    · next hz =>
      simp only [Except.map] at h
      cases h
      exact ⟨hdim.1, hdim.2, hz.1, hz.2, rfl⟩
    · simp only [Except.map] at h
      cases h

theorem subtract_ok (A B R : SparseMatrix) (h : A.subtract B = .ok R) :
    A.rows = B.rows ∧ A.cols = B.cols ∧ A.rows ≠ 0 ∧ A.cols ≠ 0 ∧
    R = denseAccum (fun row col => A.getElement row col - B.getElement row col)
      (intRangeLt A.rows) (intRangeLt A.cols)
      { rows := A.rows, cols := A.cols, elements := [] } := by
  rw [subtract] at h
  split at h
  · cases h
  · next hdim =>
    push_neg at hdim
    rw [mkFromDims] at h
    split at h
    · next hz =>
      simp only [Except.map] at h
      cases h
      exact ⟨hdim.1, hdim.2, hz.1, hz.2, rfl⟩
    · simp only [Except.map] at h
      cases h

theorem rows_denseAccum (f : Int → Int → Int) (rs cs : List Int) (init : SparseMatrix) :
    (denseAccum f rs cs init).rows = init.rows := by
  rw [denseAccum_eq_foldl]
  exact rows_foldl_accumStep _ _ _

theorem cols_denseAccum (f : Int → Int → Int) (rs cs : List Int) (init : SparseMatrix) :
    (denseAccum f rs cs init).cols = init.cols := by
  rw [denseAccum_eq_foldl]
  exact cols_foldl_accumStep _ _ _

/-- Membership in the element list produced by the dense loop started from an
empty result. -/
theorem mem_denseAccum_iff (f : Int → Int → Int) (rs cs : List Int) (r0 c0 : Int)
    (x : Entry) :
    x ∈ (denseAccum f rs cs { rows := r0, cols := c0, elements := [] }).elements ↔
      x.1 ∈ scanPairs rs cs ∧ x.2 = f x.1.1 x.1.2 ∧ x.2 ≠ 0 := by
  rw [denseAccum_eq_foldl]
  constructor
  · intro hx
    rcases mem_foldl_accumStep f _ _ x hx with h | h
    · simp at h
    · exact h
  · rintro ⟨hmem, hval, hnz⟩
    have hget := getElement_foldl_accumStep f (scanPairs rs cs)
      { rows := r0, cols := c0, elements := [] } x.1
    rw [if_pos ⟨hmem, hval ▸ hnz⟩] at hget
    rw [getElement] at hget
    cases hal : alGet ((scanPairs rs cs).foldl (accumStep f)
        { rows := r0, cols := c0, elements := [] }).elements (x.1.1, x.1.2) with
    | none =>
      rw [hal] at hget
      exact absurd (hval.trans hget.symm) hnz
    | some w =>
      rw [hal] at hget
      have hw : w = x.2 := by
        rw [hval]
        exact hget
      have := alGet_eq_some_mem _ _ _ hal
      rw [hw] at this
      exact this

/-- Inside the scanned rectangle the result of the dense loop reads back
exactly `f`. -/
theorem getElement_denseAccum (f : Int → Int → Int) (rs cs : List Int) (r0 c0 : Int)
    (q : Int × Int) (hq : q ∈ scanPairs rs cs) :
    (denseAccum f rs cs { rows := r0, cols := c0, elements := [] }).getElement q.1 q.2 =
      f q.1 q.2 := by
  rw [denseAccum_eq_foldl]
  have hget := getElement_foldl_accumStep f (scanPairs rs cs)
    { rows := r0, cols := c0, elements := [] } q
  by_cases hf : f q.1 q.2 ≠ 0
  · rw [if_pos ⟨hq, hf⟩] at hget
    exact hget
  · push_neg at hf
    rw [if_neg (by simp [hf])] at hget
    rw [hget, hf]
    rfl

/-- The value read back from an `add` result at an in-range coordinate is the
pointwise sum. -/
theorem getElement_add (A B R : SparseMatrix) (h : A.add B = .ok R) (q : Int × Int)
    (hq : 0 ≤ q.1 ∧ q.1 ≤ A.rows ∧ 0 ≤ q.2 ∧ q.2 ≤ A.cols) :
    R.getElement q.1 q.2 = A.getElement q.1 q.2 + B.getElement q.1 q.2 := by
  obtain ⟨-, -, -, -, hR⟩ := add_ok A B R h
  rw [hR]
  exact getElement_denseAccum _ _ _ _ _ q
    ((mem_scanPairs _ _ q).2
      ⟨(mem_intRangeLe _ _).2 ⟨hq.1, hq.2.1⟩, (mem_intRangeLe _ _).2 ⟨hq.2.2.1, hq.2.2.2⟩⟩)

theorem foldl_mulInner_resops (ci : List (Int × List (Int × Int))) (cb cb' : Bool)
    (t r1 c1 v1 : Int) (L : List Int) (s s' : SparseMatrix × Nat × List (Nat × Int))
    (h1 : s.1 = s'.1) (h2 : s.2.1 = s'.2.1) :
    (L.foldl (mulInner ci cb t r1 c1 v1) s).1 = (L.foldl (mulInner ci cb' t r1 c1 v1) s').1 ∧
    (L.foldl (mulInner ci cb t r1 c1 v1) s).2.1 =
      (L.foldl (mulInner ci cb' t r1 c1 v1) s').2.1 := by
  induction L generalizing s s' with
  | nil => exact ⟨h1, h2⟩
  | cons c2 rest ih =>
    rw [List.foldl_cons, List.foldl_cons]
    refine ih _ _ ?_ ?_
    · show mulRes ci r1 c1 v1 s.1 c2 = mulRes ci r1 c1 v1 s'.1 c2
      rw [h1]
    · show s.2.1 + 1 = s'.2.1 + 1
      rw [h2]

theorem foldl2_mulInner_resops (ci : List (Int × List (Int × Int))) (cb cb' : Bool)
    (t : Int) (es : List Entry) (L : List Int)
    (s s' : SparseMatrix × Nat × List (Nat × Int))
    (h1 : s.1 = s'.1) (h2 : s.2.1 = s'.2.1) :
    (es.foldl (fun st e => L.foldl (mulInner ci cb t e.1.1 e.1.2 e.2) st) s).1 =
      (es.foldl (fun st e => L.foldl (mulInner ci cb' t e.1.1 e.1.2 e.2) st) s').1 ∧
    (es.foldl (fun st e => L.foldl (mulInner ci cb t e.1.1 e.1.2 e.2) st) s).2.1 =
      (es.foldl (fun st e => L.foldl (mulInner ci cb' t e.1.1 e.1.2 e.2) st) s').2.1 := by
  induction es generalizing s s' with
  | nil => exact ⟨h1, h2⟩
  | cons e rest ih =>
    rw [List.foldl_cons, List.foldl_cons]
    have step := foldl_mulInner_resops ci cb cb' t e.1.1 e.1.2 e.2 L s s' h1 h2
    exact ih _ _ step.1 step.2

theorem mulLoop_resops (A B : SparseMatrix) (cb cb' : Bool) (res0 : SparseMatrix) :
    (mulLoop A B cb res0).1 = (mulLoop A B cb' res0).1 ∧
    (mulLoop A B cb res0).2.1 = (mulLoop A B cb' res0).2.1 := by
  rw [mulLoop, mulLoop]
  exact foldl2_mulInner_resops _ cb cb' _ A.elements _ _ _ rfl rfl

theorem foldl_mulInner_log_false (ci : List (Int × List (Int × Int))) (t r1 c1 v1 : Int)
    (L : List Int) (s : SparseMatrix × Nat × List (Nat × Int)) :
    (L.foldl (mulInner ci false t r1 c1 v1) s).2.2 = s.2.2 := by
  induction L generalizing s with
  | nil => rfl
  | cons c2 rest ih =>
    rw [List.foldl_cons, ih]
    show mulLog false t (s.2.1 + 1) s.2.2 = s.2.2
    rw [mulLog, if_neg (by simp)]

theorem foldl2_mulInner_log_false (ci : List (Int × List (Int × Int))) (t : Int)
    (es : List Entry) (L : List Int) (s : SparseMatrix × Nat × List (Nat × Int)) :
    (es.foldl (fun st e => L.foldl (mulInner ci false t e.1.1 e.1.2 e.2) st) s).2.2 =
      s.2.2 := by
  induction es generalizing s with
  | nil => rfl
  | cons e rest ih =>
    rw [List.foldl_cons, ih, foldl_mulInner_log_false]

theorem mulLoop_log_false (A B : SparseMatrix) (res0 : SparseMatrix) :
    (mulLoop A B false res0).2.2 = [] := by
  rw [mulLoop]
  exact foldl2_mulInner_log_false _ _ A.elements _ _

theorem mem_mulLog (cb : Bool) (t : Int) (ops1 : Nat) (log : List (Nat × Int))
    (h : ∀ p ∈ log, p.1 % 1000000 = 0) :
    ∀ p ∈ mulLog cb t ops1 log, p.1 % 1000000 = 0 := by
  intro p hp
  rw [mulLog] at hp
  split at hp
  · next hc =>
    rcases List.mem_append.1 hp with hp | hp
    · exact h p hp
    · rw [List.mem_singleton] at hp
      rw [hp]
      exact hc.2
  · exact h p hp

theorem foldl_mulInner_log_mod (ci : List (Int × List (Int × Int))) (cb : Bool)
    (t r1 c1 v1 : Int) (L : List Int) (s : SparseMatrix × Nat × List (Nat × Int))
    (h : ∀ p ∈ s.2.2, p.1 % 1000000 = 0) :
    ∀ p ∈ (L.foldl (mulInner ci cb t r1 c1 v1) s).2.2, p.1 % 1000000 = 0 := by
  induction L generalizing s with
  | nil => exact h
  | cons c2 rest ih =>
    rw [List.foldl_cons]
    refine ih _ ?_
    exact mem_mulLog cb t (s.2.1 + 1) s.2.2 h

theorem foldl2_mulInner_log_mod (ci : List (Int × List (Int × Int))) (cb : Bool)
    (t : Int) (es : List Entry) (L : List Int)
    (s : SparseMatrix × Nat × List (Nat × Int))
    (h : ∀ p ∈ s.2.2, p.1 % 1000000 = 0) :
    ∀ p ∈ (es.foldl (fun st e => L.foldl (mulInner ci cb t e.1.1 e.1.2 e.2) st) s).2.2,
      p.1 % 1000000 = 0 := by
  induction es generalizing s with
  | nil => exact h
  | cons e rest ih =>
    rw [List.foldl_cons]
    exact ih _ (foldl_mulInner_log_mod _ _ _ _ _ _ _ _ h)

theorem mulLoop_log_mod (A B : SparseMatrix) (cb : Bool) (res0 : SparseMatrix) :
    ∀ p ∈ (mulLoop A B cb res0).2.2, p.1 % 1000000 = 0 := by
  rw [mulLoop]
  refine foldl2_mulInner_log_mod _ _ _ A.elements _ _ ?_
  intro p hp
  simp at hp

theorem add_error_dim_iff (A B : SparseMatrix) :
    A.add B = .error "Matrix dimensions do not match for addition" ↔
      A.rows ≠ B.rows ∨ A.cols ≠ B.cols := by
  by_cases hdim : A.rows ≠ B.rows ∨ A.cols ≠ B.cols
  · rw [add, if_pos hdim]
    exact iff_of_true rfl hdim
  · rw [add, if_neg hdim]
    refine iff_of_false ?_ hdim
    rw [mkFromDims]
    split
    · simp [Except.map]
    · simp only [Except.map]
      intro hcon
      injection hcon with hmsg
      exact absurd hmsg (by decide)

theorem subtract_error_dim_iff (A B : SparseMatrix) :
    A.subtract B = .error "Matrix dimensions do not match for subtraction" ↔
      A.rows ≠ B.rows ∨ A.cols ≠ B.cols := by
  by_cases hdim : A.rows ≠ B.rows ∨ A.cols ≠ B.cols
  · rw [subtract, if_pos hdim]
    exact iff_of_true rfl hdim
  · rw [subtract, if_neg hdim]
    refine iff_of_false ?_ hdim
    rw [mkFromDims]
    split
    · simp [Except.map]
    · simp only [Except.map]
      intro hcon
      injection hcon with hmsg
      exact absurd hmsg (by decide)

theorem multiply_error_dim_iff (A B : SparseMatrix) :
    A.multiply B = .error "Matrix dimensions are not compatible for multiplication" ↔
      A.cols ≠ B.rows := by
  by_cases hdim : A.cols ≠ B.rows
  · rw [multiply, multiplyP, if_pos hdim]
    exact iff_of_true rfl hdim
  · rw [multiply, multiplyP, if_neg hdim]
    refine iff_of_false ?_ hdim
    rw [mkFromDims]
    split
    · simp [Except.map]
    · simp only [Except.map]
      intro hcon
      injection hcon with hmsg
      exact absurd hmsg (by decide)

end SparseMatrix

/-- Matrix A of the spec's concrete scenario (2×2, entries (0,0)↦1, (1,1)↦2). -/
def exA : SparseMatrix := ⟨2, 2, [((0, 0), 1), ((1, 1), 2)]⟩

/-- Matrix B of the spec's concrete scenario (2×2, entries (0,0)↦3, (0,1)↦4). -/
def exB : SparseMatrix := ⟨2, 2, [((0, 0), 3), ((0, 1), 4)]⟩

/-- The computed `exA.add exB`. -/
def exAddRes : SparseMatrix := ⟨2, 2, [((0, 0), 4), ((0, 1), 4), ((1, 1), 2)]⟩

/-- The computed `exA.subtract exB`. -/
def exSubRes : SparseMatrix := ⟨2, 2, [((0, 0), -2), ((0, 1), -4), ((1, 1), 2)]⟩

/-- The computed `exA.multiply exB`. -/
def exMulRes : SparseMatrix := ⟨2, 2, [((0, 0), 3), ((0, 1), 4)]⟩

/-- The computed `exAddRes.subtract exB` (the add/subtract round trip). -/
def exRoundSub : SparseMatrix := ⟨2, 2, [((0, 0), 1), ((1, 1), 2)]⟩

/-- A 1×1 matrix carrying an entry at row index 1 = rows, reachable through
`setElement` (which performs no bounds check). -/
def cexA : SparseMatrix := ⟨1, 1, [((1, 0), 5)]⟩

/-- An empty 1×1 matrix. -/
def cexB : SparseMatrix := ⟨1, 1, []⟩

/-- A 1×2 matrix whose row 0 holds 1 and −1, in that insertion order. -/
def bugA : SparseMatrix := ⟨1, 2, [((0, 0), 1), ((0, 1), -1)]⟩

/-- A 2×1 matrix whose column 0 holds 1 and 1. -/
def bugB : SparseMatrix := ⟨2, 1, [((0, 0), 1), ((1, 0), 1)]⟩

/-- A 2×1 matrix with the single entry (0,0)↦1. -/
def bugC : SparseMatrix := ⟨2, 1, [((0, 0), 1)]⟩

/-- A 2×1 matrix with the single entry (1,0)↦1. -/
def bugD : SparseMatrix := ⟨2, 1, [((1, 0), 1)]⟩

open SparseMatrix

/-- Claim C1 (code bug): the spec demands `result[i][j] = Σ_k this[i][k] * other[k][j]`
with zero sums left unstored, but the guard `if (newValue !== 0)` in `multiply`
skips the write that would remove a stale partial sum.  At `bugA × bugB` the
true inner product at (0,0) is `1*1 + (-1)*1 = 0`, yet the code leaves the
stale entry `(0,0) ↦ 1` in the result. -/
theorem claim_C1_multiply_skips_zero_write :
    bugA.multiply bugB = .ok ⟨1, 1, [((0, 0), 1)]⟩ ∧
    bugA.getElement 0 0 * bugB.getElement 0 0 +
      bugA.getElement 0 1 * bugB.getElement 1 0 = 0 :=
  ⟨rfl, rfl⟩

/-- Claim C2 (counterexample): for `cexA`, a 1×1 matrix holding the entry
(1,0) ↦ 5 at row index 1 = rows, `add`'s inclusive scan keeps the entry but
`subtract`'s exclusive scan drops it, so `A.add(B).subtract(B)` loses it and
does not have the same entry set as `A`. -/
theorem claim_C2_counterexample :
    (cexA.add cexB).bind (fun R => R.subtract cexB) = .ok ⟨1, 1, []⟩ ∧
    cexA.elements ≠ [] :=
  ⟨rfl, by decide⟩

/-- Claim C2 (amended): for matrices with equal dimensions satisfying the
representation invariants (unique keys, no zero values) whose entries all lie
inside `[0, rows) × [0, cols)`, `A.add(B).subtract(B)` has exactly the same
entry set as `A`. -/
theorem claim_C2_amended (A B R S : SparseMatrix)
    (hnd : KeysNodup A) (hv : ValuesNonzero A) (hb : InBounds A)
    (hR : A.add B = .ok R) (hS : R.subtract B = .ok S) :
    ∀ x, x ∈ S.elements ↔ x ∈ A.elements := by
  intro x
  obtain ⟨-, -, -, -, hRe⟩ := add_ok A B R hR
  have hrowsR : R.rows = A.rows := by
    rw [hRe]
    exact rows_denseAccum _ _ _ _
  have hcolsR : R.cols = A.cols := by
    rw [hRe]
    exact cols_denseAccum _ _ _ _
  obtain ⟨-, -, -, -, hSe⟩ := subtract_ok R B S hS
  rw [hSe, hrowsR, hcolsR]
  simp only [mem_denseAccum_iff]
  constructor
  · rintro ⟨hmem, hval, hnz⟩
    obtain ⟨hr1, hc1⟩ := (mem_scanPairs _ _ _).1 hmem
    obtain ⟨hr1a, hr1b⟩ := (mem_intRangeLt _ _).1 hr1
    obtain ⟨hc1a, hc1b⟩ := (mem_intRangeLt _ _).1 hc1
    have hadd := getElement_add A B R hR x.1 ⟨hr1a, le_of_lt hr1b, hc1a, le_of_lt hc1b⟩
    rw [hadd] at hval
    have hxA : x.2 = A.getElement x.1.1 x.1.2 := by omega
    rw [getElement] at hxA
    cases hal : alGet A.elements (x.1.1, x.1.2) with
    | none =>
      rw [hal, Option.getD_none] at hxA
      exact absurd hxA hnz
    | some w =>
      rw [hal, Option.getD_some] at hxA
      have hmemA : ((x.1.1, x.1.2), w) ∈ A.elements := alGet_eq_some_mem _ _ _ hal
      have hx' : ((x.1.1, x.1.2), w) = x := by rw [← hxA]
      exact hx' ▸ hmemA
  · intro hx
    have hbx := hb x hx
    have hvx := hv x hx
    have hget : A.getElement x.1.1 x.1.2 = x.2 := by
      rw [getElement, alGet_of_mem_nodup A.elements (x.1.1, x.1.2) x.2 hnd hx]
      rfl
    refine ⟨?_, ?_, hvx⟩
    · exact (mem_scanPairs _ _ _).2
        ⟨(mem_intRangeLt _ _).2 ⟨hbx.1, hbx.2.1⟩,
         (mem_intRangeLt _ _).2 ⟨hbx.2.2.1, hbx.2.2.2⟩⟩
    · have hadd := getElement_add A B R hR x.1
        ⟨hbx.1, le_of_lt hbx.2.1, hbx.2.2.1, le_of_lt hbx.2.2.2⟩
      rw [hadd, hget]
      omega

/-- Claim C2 (witness): the amended round trip holds at the concrete scenario
matrices. -/
theorem claim_C2_witness : ((0, 0), 1) ∈ exRoundSub.elements :=
  (claim_C2_amended exA exB exAddRes exRoundSub (by decide) (by decide) (by decide)
    rfl rfl ((0, 0), 1)).mpr (by decide)

/-- Claim C3 (counterexample): two different dimension conflicts (2×3 vs 3×2,
and 5×7 vs 7×5) raise the very same fixed error message, so the raised error
cannot name the conflicting dimensions. -/
theorem claim_C3_counterexample :
    (SparseMatrix.mk 2 3 []).add (SparseMatrix.mk 3 2 []) =
      (SparseMatrix.mk 5 7 []).add (SparseMatrix.mk 7 5 []) ∧
    (SparseMatrix.mk 2 3 []).add (SparseMatrix.mk 3 2 []) =
      .error "Matrix dimensions do not match for addition" :=
  ⟨rfl, rfl⟩

/-- Claim C3 (amended): `add`/`subtract` raise their dimension-mismatch error
exactly when the row counts or column counts differ, and `multiply` raises its
dimension error exactly when `this.cols ≠ other.rows`; the message is a fixed
string naming the operation (not the conflicting dimension values), and as the
operations are pure functions returning `Except`, a failure produces no
partial result object and leaves both operands unchanged. -/
theorem claim_C3_amended (A B : SparseMatrix) :
    (A.add B = .error "Matrix dimensions do not match for addition" ↔
      A.rows ≠ B.rows ∨ A.cols ≠ B.cols) ∧
    (A.subtract B = .error "Matrix dimensions do not match for subtraction" ↔
      A.rows ≠ B.rows ∨ A.cols ≠ B.cols) ∧
    (A.multiply B = .error "Matrix dimensions are not compatible for multiplication" ↔
      A.cols ≠ B.rows) :=
  ⟨add_error_dim_iff A B, subtract_error_dim_iff A B, multiply_error_dim_iff A B⟩

/-- Claim C4: with equal dimensions, `A.add B` and `B.add A` return identical
results (hence identical entry sets), and no entry of an `add` result carries
the value 0. -/
theorem claim_C4_add_commutative (A B R : SparseMatrix)
    (hr : A.rows = B.rows) (hc : A.cols = B.cols) :
    A.add B = B.add A ∧ (A.add B = .ok R → ∀ e ∈ R.elements, e.2 ≠ 0) := by
  constructor
  · rw [add, add]
    have h1 : ¬(A.rows ≠ B.rows ∨ A.cols ≠ B.cols) := by simp [hr, hc]
    have h2 : ¬(B.rows ≠ A.rows ∨ B.cols ≠ A.cols) := by simp [hr, hc]
    rw [if_neg h1, if_neg h2, ← hr, ← hc]
    have hf : (fun row col => A.getElement row col + B.getElement row col)
        = (fun row col => B.getElement row col + A.getElement row col) := by
      funext r c
      exact Int.add_comm _ _
    rw [hf]
  · intro h e he
    obtain ⟨-, -, -, -, hRe⟩ := add_ok A B R h
    rw [hRe] at he
    exact ((mem_denseAccum_iff _ _ _ _ _ _).1 he).2.2

/-- Claim C4 (witness): commutativity at the concrete scenario matrices. -/
theorem claim_C4_witness : exA.add exB = exB.add exA :=
  (claim_C4_add_commutative exA exB exAddRes rfl rfl).1

/-- Claim C5: the spec's concrete scenario.  `A.add B`, `A.subtract B` and
`A.multiply B` compute exactly the stated entry sets. -/
theorem claim_C5_concrete_scenario :
    exA.add exB = .ok exAddRes ∧
    exA.subtract exB = .ok exSubRes ∧
    exA.multiply exB = .ok exMulRes :=
  ⟨rfl, rfl, rfl⟩

/-- Claim C6: `setElement` and `getElement` are total for every integer
coordinate; a set of a nonzero value is read back immediately, and a set of 0
reads back 0 and leaves no entry stored under that key. -/
theorem claim_C6_set_get (M : SparseMatrix) (row col value : Int) (hM : KeysNodup M) :
    (value ≠ 0 → (M.setElement row col value).getElement row col = value) ∧
    (M.setElement row col 0).getElement row col = 0 ∧
    ∀ e ∈ (M.setElement row col 0).elements, e.1 ≠ (row, col) := by
  refine ⟨fun hv => getElement_setElement_self M (row, col) value hv, ?_, ?_⟩
  · rw [setElement, if_neg (by simp)]
    show (alGet (alDel M.elements (row, col)) (row, col)).getD 0 = 0
    rw [alGet_alDel_self M.elements (row, col) hM]
    rfl
  · intro e he
    rw [setElement, if_neg (by simp)] at he
    exact (alGet_eq_none_iff _ _).1 (alGet_alDel_self M.elements (row, col) hM) e he

/-- Claim C6 (witness): set-then-get at a concrete matrix and coordinate. -/
theorem claim_C6_witness : (exA.setElement 0 1 7).getElement 0 1 = 7 :=
  (claim_C6_set_get exA 0 1 7 (by decide)).1 (by decide)

/-- Claim C7 (code bug): `multiply` should distribute over `add`, but the
skipped zero write of `multiply` breaks it: with `bugA`, `bugC`, `bugD` the
left side `A.multiply (B.add C)` keeps a stale entry `(0,0) ↦ 1` while the
right side `A.multiply B .add (A.multiply C)` is the empty matrix. -/
theorem claim_C7_distributivity_fails :
    (bugC.add bugD).bind (fun S => bugA.multiply S) = .ok ⟨1, 1, [((0, 0), 1)]⟩ ∧
    (bugA.multiply bugC).bind (fun P => (bugA.multiply bugD).bind
      (fun Q => P.add Q)) = .ok ⟨1, 1, []⟩ ∧
    (⟨1, 1, [((0, 0), 1)]⟩ : SparseMatrix) ≠ ⟨1, 1, []⟩ :=
  ⟨rfl, rfl, by decide⟩

/-- Claim C10: every entry of an `add` result lies in the inclusive rectangle
`[0, rows] × [0, cols]` and every entry of a `subtract` result in the
exclusive rectangle `[0, rows) × [0, cols)`; any coordinate outside the
respective scanned range is absent from the result, whatever the operands
stored there. -/
theorem claim_C10_result_bounds (A B R S : SparseMatrix)
    (hR : A.add B = .ok R) (hS : A.subtract B = .ok S) :
    (∀ e ∈ R.elements, 0 ≤ e.1.1 ∧ e.1.1 ≤ A.rows ∧ 0 ≤ e.1.2 ∧ e.1.2 ≤ A.cols) ∧
    (∀ e ∈ S.elements, 0 ≤ e.1.1 ∧ e.1.1 < A.rows ∧ 0 ≤ e.1.2 ∧ e.1.2 < A.cols) ∧
    (∀ r c : Int, (r < 0 ∨ A.rows < r ∨ c < 0 ∨ A.cols < c) →
      alGet R.elements (r, c) = none) ∧
    (∀ r c : Int, (r < 0 ∨ A.rows ≤ r ∨ c < 0 ∨ A.cols ≤ c) →
      alGet S.elements (r, c) = none) := by
  obtain ⟨-, -, -, -, hRe⟩ := add_ok A B R hR
  obtain ⟨-, -, -, -, hSe⟩ := subtract_ok A B S hS
  have hRb : ∀ e ∈ R.elements,
      0 ≤ e.1.1 ∧ e.1.1 ≤ A.rows ∧ 0 ≤ e.1.2 ∧ e.1.2 ≤ A.cols := by
    intro e he
    rw [hRe] at he
    obtain ⟨hmem, -, -⟩ := (mem_denseAccum_iff _ _ _ _ _ _).1 he
    obtain ⟨h1, h2⟩ := (mem_scanPairs _ _ _).1 hmem
    obtain ⟨h1a, h1b⟩ := (mem_intRangeLe _ _).1 h1
    obtain ⟨h2a, h2b⟩ := (mem_intRangeLe _ _).1 h2
    exact ⟨h1a, h1b, h2a, h2b⟩
  have hSb : ∀ e ∈ S.elements,
      0 ≤ e.1.1 ∧ e.1.1 < A.rows ∧ 0 ≤ e.1.2 ∧ e.1.2 < A.cols := by
    intro e he
    rw [hSe] at he
    obtain ⟨hmem, -, -⟩ := (mem_denseAccum_iff _ _ _ _ _ _).1 he
    obtain ⟨h1, h2⟩ := (mem_scanPairs _ _ _).1 hmem
    obtain ⟨h1a, h1b⟩ := (mem_intRangeLt _ _).1 h1
    obtain ⟨h2a, h2b⟩ := (mem_intRangeLt _ _).1 h2
    exact ⟨h1a, h1b, h2a, h2b⟩
  refine ⟨hRb, hSb, ?_, ?_⟩
  · intro r c hout
    cases hal : alGet R.elements (r, c) with
    | none => rfl
    | some v =>
      exfalso
      have hp : 0 ≤ r ∧ r ≤ A.rows ∧ 0 ≤ c ∧ c ≤ A.cols :=
        hRb ((r, c), v) (alGet_eq_some_mem _ _ _ hal)
      obtain ⟨p1, p2, p3, p4⟩ := hp
      rcases hout with h | h | h | h <;> omega
  · intro r c hout
    cases hal : alGet S.elements (r, c) with
    | none => rfl
    | some v =>
      exfalso
      have hp : 0 ≤ r ∧ r < A.rows ∧ 0 ≤ c ∧ c < A.cols :=
        hSb ((r, c), v) (alGet_eq_some_mem _ _ _ hal)
      obtain ⟨p1, p2, p3, p4⟩ := hp
      rcases hout with h | h | h | h <;> omega

/-- Claim C10 (witness): the bounds hold at the concrete scenario matrices. -/
theorem claim_C10_witness : alGet exAddRes.elements (5, 5) = none :=
  (claim_C10_result_bounds exA exB exAddRes exSubRes rfl rfl).2.2.1 5 5 (by decide)

/-- Claim C9: a `multiply` run with the progress callback supplied returns the
same matrix as a run without it; the no-callback run invokes the callback
never, and a with-callback run invokes it only when the operation counter is
an exact multiple of 10^6 (coarse-grained intervals), never on every
elementary multiply-add. -/
theorem claim_C9_progress_observer (A B : SparseMatrix)
    (rp : SparseMatrix × List (Nat × Int)) (h : multiplyP A B true = .ok rp) :
    A.multiply B = .ok rp.1 ∧ multiplyP A B false = .ok (rp.1, []) ∧
    ∀ p ∈ rp.2, p.1 % 1000000 = 0 := by
  rw [multiplyP] at h
  split at h
  · cases h
  · next hdim =>
    rw [mkFromDims] at h
    split at h
    · next hz =>
      simp only [Except.map] at h
      cases h
      refine ⟨?_, ?_, ?_⟩
      · rw [multiply, multiplyP, if_neg hdim, mkFromDims, if_pos hz]
        simp only [Except.map]
        rw [(mulLoop_resops A B false true _).1]
      · rw [multiplyP, if_neg hdim, mkFromDims, if_pos hz]
        simp only [Except.map]
        rw [(mulLoop_resops A B false true _).1, mulLoop_log_false]
      · exact mulLoop_log_mod A B true _
    · simp only [Except.map] at h
      cases h

/-- Claim C9 (witness): at the concrete scenario matrices the two runs agree
and the no-callback run logs nothing. -/
theorem claim_C9_witness :
    exA.multiply exB = .ok exMulRes ∧ multiplyP exA exB false = .ok (exMulRes, []) :=
  ⟨(claim_C9_progress_observer exA exB (exMulRes, []) rfl).1,
   (claim_C9_progress_observer exA exB (exMulRes, []) rfl).2.1⟩

/-!
Serialization (`toString`) and parsing (`loadFromFile`).

JS strings are modelled as `List Char`.  `toString` builds
`rows=R\ncols=C\n(r, c, v)\n...` and trims trailing whitespace;
`loadFromFile` splits on `'\n'`, checks the two header lines, and parses each
element line.  `parseInt` is modelled on the inputs this format produces:
an optional sign followed by a maximal run of decimal digits, `NaN` (here
`none`) when that run is empty.  One deviation: when `parseInt` fails on a
header value the JS code silently stores `NaN` as a dimension; `NaN` has no
`Int` counterpart, so the model reports the malformed header as a format
error instead (the spec calls such inputs `FormatError`s anyway).
-/

/-- The characters `trim` removes (the forms that can appear here). -/
def isWsChar (c : Char) : Bool := c == ' ' || c == '\t' || c == '\n' || c == '\r'

/-- JS `String.prototype.trim`: drop whitespace at both ends. -/
def trimChars (l : List Char) : List Char :=
  ((l.dropWhile isWsChar).reverse.dropWhile isWsChar).reverse

/-- JS `String.prototype.split(sep)` for a one-character separator. -/
def splitOnChar (sep : Char) : List Char → List (List Char)
  | [] => [[]]
  | c :: cs =>
    if c = sep then [] :: splitOnChar sep cs
    else
      match splitOnChar sep cs with
      | [] => [[c]]
      | l :: ls => (c :: l) :: ls

/-- Decimal digit character. -/
def digitCh (d : Nat) : Char :=
  match d with
  | 0 => '0' | 1 => '1' | 2 => '2' | 3 => '3' | 4 => '4'
  | 5 => '5' | 6 => '6' | 7 => '7' | 8 => '8' | _ => '9'

/-- Numeric value of a digit character. -/
def digitVal (c : Char) : Nat := c.toNat - 48

/-- Is `c` a decimal digit? -/
def isDigitChar (c : Char) : Bool :=
  c == '0' || c == '1' || c == '2' || c == '3' || c == '4' ||
  c == '5' || c == '6' || c == '7' || c == '8' || c == '9'

/-- Decimal rendering of a positive number, fuel-structured so that it
computes by kernel reduction (`fuel ≥ n` renders all digits). -/
def renderNatAux : Nat → Nat → List Char
  | 0, _ => []
  | fuel + 1, n => if n = 0 then [] else renderNatAux fuel (n / 10) ++ [digitCh (n % 10)]

/-- The canonical JS decimal string of a natural number. -/
def renderNat (n : Nat) : List Char :=
  if n = 0 then ['0'] else renderNatAux n n

/-- The canonical JS decimal string of an integer (template-literal
interpolation `` `${x}` `` of an integral number). -/
def renderInt (v : Int) : List Char :=
  if v < 0 then '-' :: renderNat v.natAbs else renderNat v.toNat

/-- JS `parseInt` on the maximal digit prefix. -/
def parseNatDigits (cs : List Char) : Option Nat :=
  if (cs.takeWhile isDigitChar).isEmpty then none
  else some ((cs.takeWhile isDigitChar).foldl (fun a c => 10 * a + digitVal c) 0)

/-- JS `parseInt(s)`: optional sign, then digits; `none` models `NaN`. -/
def parseIntJs : List Char → Option Int
  | [] => none
  | c :: rest =>
    if c = '-' then (parseNatDigits rest).map (fun n : Nat => -(n : Int))
    else if c = '+' then (parseNatDigits rest).map (fun n : Nat => (n : Int))
    else (parseNatDigits (c :: rest)).map (fun n : Nat => (n : Int))

/-- The header prefix `rows=`. -/
def rowsHdr : List Char := ['r', 'o', 'w', 's', '=']

/-- The header prefix `cols=`. -/
def colsHdr : List Char := ['c', 'o', 'l', 's', '=']

/-- The text between the parentheses of an element line:
`` `${row}, ${col}, ${value}` ``. -/
def entryInner (r c v : Int) : List Char :=
  renderInt r ++ (',' :: ' ' :: (renderInt c ++ (',' :: ' ' :: renderInt v)))

/-- One element line `(${row}, ${col}, ${value})`. -/
def entryLine (r c v : Int) : List Char :=
  '(' :: (entryInner r c v ++ [')'])

namespace SparseMatrix

/-- Method `toString()`: the two header lines then one line per stored entry, each
followed by `\n`, with the final result trimmed. -/
def toText (M : SparseMatrix) : List Char :=
  trimChars (M.elements.foldl (fun acc e => acc ++ entryLine e.1.1 e.1.2 e.2 ++ ['\n'])
    (rowsHdr ++ renderInt M.rows ++ '\n' :: (colsHdr ++ renderInt M.cols ++ ['\n'])))

end SparseMatrix

/-- The JS expression `content[i].split("=")[1]` followed by `parseInt`. -/
def parseHeaderVal (l : List Char) : Option Int :=
  match (splitOnChar '=' l)[1]? with
  | some piece => parseIntJs piece
  | none => none

/-- One iteration of the element-line loop of `loadFromFile`: trim, skip blank
lines, demand the parenthesized three-field shape, parse the three integers. -/
def parseEntryLine (raw : List Char) : Except String (Option (Int × Int × Int)) :=
  let line := trimChars raw
  if line.isEmpty then .ok none
  else if ['('].isPrefixOf line ∧ [')'].isSuffixOf line then
    match (splitOnChar ',' ((line.drop 1).dropLast)).map trimChars with
    | [p0, p1, p2] =>
      match parseIntJs p0, parseIntJs p1, parseIntJs p2 with
      | some row, some col, some value => .ok (some (row, col, value))
      | _, _, _ => .error "Invalid numbers in element"
    | _ => .error "Invalid element format"
  else .error "Invalid element format"

namespace SparseMatrix

/-- The element-line loop of `loadFromFile`, accumulating through
`setElement`. -/
def loadLines : SparseMatrix → List (List Char) → Except String SparseMatrix
  | M, [] => .ok M
  | M, l :: ls =>
    match parseEntryLine l with
    | .error e => .error e
    | .ok none => loadLines M ls
    | .ok (some (row, col, value)) => loadLines (M.setElement row col value) ls

/-- Method `loadFromFile` applied to file contents: split on `'\n'`, check the
header lines, read the dimensions, then process the element lines. -/
def loadText (text : List Char) : Except String SparseMatrix :=
  match splitOnChar '\n' text with
  | l0 :: l1 :: rest =>
    if rowsHdr.isPrefixOf l0 ∧ colsHdr.isPrefixOf l1 then
      match parseHeaderVal l0, parseHeaderVal l1 with
      | some r, some c => loadLines { rows := r, cols := c, elements := [] } rest
      | _, _ => .error "Invalid file format"
    else .error "Invalid file format"
  | _ => .error "Invalid file format"

end SparseMatrix

theorem isDigitChar_cases (c : Char) (h : isDigitChar c = true) :
    c = '0' ∨ c = '1' ∨ c = '2' ∨ c = '3' ∨ c = '4' ∨
    c = '5' ∨ c = '6' ∨ c = '7' ∨ c = '8' ∨ c = '9' := by
  rw [isDigitChar] at h
  simp only [Bool.or_eq_true, beq_iff_eq] at h
  tauto

theorem digit_not_special (c : Char) (h : isDigitChar c = true) :
    isWsChar c = false ∧ c ≠ ',' ∧ c ≠ '=' ∧ c ≠ '(' ∧ c ≠ ')' ∧
    c ≠ '-' ∧ c ≠ '+' ∧ c ≠ '\n' := by
  rcases isDigitChar_cases c h with rfl | rfl | rfl | rfl | rfl | rfl | rfl | rfl | rfl | rfl <;>
    exact ⟨rfl, by decide, by decide, by decide, by decide, by decide, by decide, by decide⟩

theorem digitVal_digitCh (d : Nat) (h : d < 10) : digitVal (digitCh d) = d := by
  interval_cases d <;> rfl

theorem isDigitChar_digitCh (d : Nat) (h : d < 10) : isDigitChar (digitCh d) = true := by
  interval_cases d <;> rfl

theorem renderNatAux_digits (fuel : Nat) : ∀ (n : Nat), ∀ ch ∈ renderNatAux fuel n,
    isDigitChar ch = true := by
  induction fuel with
  | zero =>
    intro n ch hch
    simp [renderNatAux] at hch
  | succ fuel ih =>
    intro n ch hch
    rw [renderNatAux] at hch
    split at hch
    · simp at hch
    · rcases List.mem_append.1 hch with h | h
      · exact ih _ ch h
      · rw [List.mem_singleton] at h
        rw [h]
        exact isDigitChar_digitCh _ (Nat.mod_lt _ (by omega))

theorem renderNatAux_ne_nil (fuel n : Nat) (h0 : 0 < n) (hf : n ≤ fuel) :
    renderNatAux fuel n ≠ [] := by
  cases fuel with
  | zero => omega
  | succ fuel =>
    rw [renderNatAux, if_neg (by omega)]
    simp

theorem foldl_renderNatAux (fuel : Nat) : ∀ n a0 : Nat, n ≤ fuel →
    (renderNatAux fuel n).foldl (fun a c => 10 * a + digitVal c) a0 =
      a0 * 10 ^ (renderNatAux fuel n).length + n := by
  induction fuel with
  | zero =>
    intro n a0 hf
    have hn : n = 0 := by omega
    simp [renderNatAux, hn]
  | succ fuel ih =>
    intro n a0 hf
    rw [renderNatAux]
    by_cases hn : n = 0
    · rw [if_pos hn]
      simp [hn]
    · rw [if_neg hn, List.foldl_append, ih (n / 10) a0 (by omega)]
      simp only [List.foldl_cons, List.foldl_nil, List.length_append,
        List.length_cons, List.length_nil]
      rw [digitVal_digitCh _ (Nat.mod_lt _ (by omega))]
      have hdm : 10 * (n / 10) + n % 10 = n := Nat.div_add_mod n 10
      calc 10 * (a0 * 10 ^ (renderNatAux fuel (n / 10)).length + n / 10) + n % 10
          = a0 * (10 ^ (renderNatAux fuel (n / 10)).length * 10) +
            (10 * (n / 10) + n % 10) := by ring
        _ = a0 * 10 ^ ((renderNatAux fuel (n / 10)).length + (0 + 1)) + n := by
            rw [hdm, pow_succ]

theorem renderNat_digits (n : Nat) : ∀ ch ∈ renderNat n, isDigitChar ch = true := by
  rw [renderNat]
  split
  · intro ch hch
    rw [List.mem_singleton] at hch
    rw [hch]
    rfl
  · exact renderNatAux_digits n n

theorem renderNat_ne_nil (n : Nat) : renderNat n ≠ [] := by
  rw [renderNat]
  split
  · simp
  · next hn => exact renderNatAux_ne_nil n n (by omega) le_rfl

theorem takeWhile_all (p : Char → Bool) (l : List Char) (h : ∀ c ∈ l, p c = true) :
    l.takeWhile p = l := by
  induction l with
  | nil => rfl
  | cons c cs ih =>
    rw [List.takeWhile_cons, if_pos (h c (List.mem_cons_self _ _))]
    rw [ih (fun c' hc' => h c' (List.mem_cons_of_mem _ hc'))]

theorem parseNatDigits_renderNat (n : Nat) : parseNatDigits (renderNat n) = some n := by
  by_cases hn : n = 0
  · subst hn
    rfl
  · have htake := takeWhile_all isDigitChar (renderNat n) (renderNat_digits n)
    rw [parseNatDigits, htake]
    rw [if_neg (by simp [List.isEmpty_iff, renderNat_ne_nil n])]
    rw [renderNat, if_neg hn, foldl_renderNatAux n n 0 le_rfl]
    simp

theorem renderInt_chars (v : Int) : ∀ ch ∈ renderInt v,
    isDigitChar ch = true ∨ ch = '-' := by
  rw [renderInt]
  split
  · intro ch hch
    rcases List.mem_cons.1 hch with h | h
    · exact Or.inr h
    · exact Or.inl (renderNat_digits _ ch h)
  · intro ch hch
    exact Or.inl (renderNat_digits _ ch hch)

theorem not_mem_renderInt (v : Int) (c : Char)
    (hdig : isDigitChar c = false) (hdash : c ≠ '-') : c ∉ renderInt v := by
  intro hc
  rcases renderInt_chars v c hc with h | h
  · rw [h] at hdig
    cases hdig
  · exact hdash h

theorem renderInt_ne_nil (v : Int) : renderInt v ≠ [] := by
  rw [renderInt]
  split
  · simp
  · exact renderNat_ne_nil _

theorem parseIntJs_renderInt (v : Int) : parseIntJs (renderInt v) = some v := by
  by_cases hv : v < 0
  · rw [renderInt, if_pos hv]
    have hstep : parseIntJs ('-' :: renderNat v.natAbs)
        = (parseNatDigits (renderNat v.natAbs)).map (fun n : Nat => -(n : Int)) := rfl
    rw [hstep, parseNatDigits_renderNat]
    have : -((v.natAbs : Int)) = v := by omega
    rw [Option.map_some']
    rw [this]
  · rw [renderInt, if_neg hv]
    obtain ⟨c, rest, hcr⟩ := List.exists_cons_of_ne_nil (renderNat_ne_nil v.toNat)
    have hd : isDigitChar c = true :=
      renderNat_digits v.toNat c (by rw [hcr]; exact List.mem_cons_self _ _)
    obtain ⟨-, -, -, -, -, hdash, hplus, -⟩ := digit_not_special c hd
    rw [hcr]
    simp only [parseIntJs, if_neg hdash, if_neg hplus]
    rw [← hcr, parseNatDigits_renderNat]
    rw [Option.map_some']
    have : ((v.toNat : Int)) = v := by omega
    rw [this]

theorem dropWhile_ws_append (xs ys : List Char) (h : ∀ x ∈ xs, isWsChar x = true) :
    (xs ++ ys).dropWhile isWsChar = ys.dropWhile isWsChar := by
  induction xs with
  | nil => rfl
  | cons c cs ih =>
    rw [List.cons_append, List.dropWhile_cons, if_pos (h c (List.mem_cons_self _ _))]
    exact ih (fun x hx => h x (List.mem_cons_of_mem _ hx))

theorem trimChars_eq (pre l suf : List Char)
    (hpre : ∀ x ∈ pre, isWsChar x = true) (hsuf : ∀ x ∈ suf, isWsChar x = true)
    (h0 : ∃ a t, l = a :: t ∧ isWsChar a = false)
    (h1 : ∃ p d, l = p ++ [d] ∧ isWsChar d = false) :
    trimChars (pre ++ l ++ suf) = l := by
  obtain ⟨a, t, hl0, ha⟩ := h0
  obtain ⟨p, d, hl1, hd⟩ := h1
  rw [trimChars]
  have hdw : (pre ++ l ++ suf).dropWhile isWsChar = l ++ suf := by
    rw [List.append_assoc, dropWhile_ws_append pre _ hpre, hl0, List.cons_append,
      List.dropWhile_cons, if_neg (by rw [ha]; simp), ← List.cons_append, ← hl0]
  rw [hdw, List.reverse_append, hl1, List.reverse_append]
  have hsing : ([d] : List Char).reverse ++ p.reverse = d :: p.reverse := by simp
  rw [hsing]
  rw [dropWhile_ws_append suf.reverse _ (fun x hx => hsuf x (List.mem_reverse.1 hx))]
  rw [List.dropWhile_cons, if_neg (by rw [hd]; simp)]
  simp

theorem splitOnChar_not_mem (sep : Char) (l : List Char) (h : sep ∉ l) :
    splitOnChar sep l = [l] := by
  induction l with
  | nil => rfl
  | cons c cs ih =>
    have hc : ¬ c = sep := by
      intro hc
      exact h (by rw [← hc]; exact List.mem_cons_self _ _)
    rw [splitOnChar, if_neg hc, ih (fun hmem => h (List.mem_cons_of_mem _ hmem))]

theorem splitOnChar_append (sep : Char) (a b : List Char) (h : sep ∉ a) :
    splitOnChar sep (a ++ sep :: b) = a :: splitOnChar sep b := by
  induction a with
  | nil => rw [List.nil_append, splitOnChar, if_pos rfl]
  | cons c cs ih =>
    have hc : ¬ c = sep := by
      intro hc
      exact h (by rw [← hc]; exact List.mem_cons_self _ _)
    rw [List.cons_append, splitOnChar, if_neg hc,
      ih (fun hmem => h (List.mem_cons_of_mem _ hmem))]

/-- Join lines with `'\n'` separators (no trailing newline). -/
def joinNl : List (List Char) → List Char
  | [] => []
  | [l] => l
  | l :: ls => l ++ '\n' :: joinNl ls

theorem splitOnChar_joinNl (ls : List (List Char)) (hne : ls ≠ [])
    (h : ∀ l ∈ ls, '\n' ∉ l) :
    splitOnChar '\n' (joinNl ls) = ls := by
  induction ls with
  | nil => cases hne rfl
  | cons l ls ih =>
    cases ls with
    | nil => exact splitOnChar_not_mem _ _ (h l (List.mem_cons_self _ _))
    | cons l2 ls2 =>
      show splitOnChar '\n' (l ++ '\n' :: joinNl (l2 :: ls2)) = _
      rw [splitOnChar_append _ _ _ (h l (List.mem_cons_self _ _)),
        ih (by simp) (fun x hx => h x (List.mem_cons_of_mem _ hx))]

theorem flatMap_nl_eq_joinNl (ls : List (List Char)) (hne : ls ≠ []) :
    ls.flatMap (fun l => l ++ ['\n']) = joinNl ls ++ ['\n'] := by
  induction ls with
  | nil => cases hne rfl
  | cons l ls ih =>
    cases ls with
    | nil => simp [joinNl]
    | cons l2 ls2 =>
      rw [List.flatMap_cons, ih (by simp)]
      show _ = (l ++ '\n' :: joinNl (l2 :: ls2)) ++ ['\n']
      simp

theorem joinNl_concat_form (ls : List (List Char)) (hne : ls ≠ [])
    (h : ∀ l ∈ ls, ∃ p d, l = p ++ [d] ∧ isWsChar d = false) :
    ∃ p d, joinNl ls = p ++ [d] ∧ isWsChar d = false := by
  induction ls with
  | nil => cases hne rfl
  | cons l ls ih =>
    cases ls with
    | nil => exact h l (List.mem_cons_self _ _)
    | cons l2 ls2 =>
      obtain ⟨p, d, hpd, hd⟩ := ih (by simp) (fun x hx => h x (List.mem_cons_of_mem _ hx))
      refine ⟨l ++ '\n' :: p, d, ?_, hd⟩
      show l ++ '\n' :: joinNl (l2 :: ls2) = _
      rw [hpd]
      simp

theorem renderInt_cons_form (v : Int) :
    ∃ a t, renderInt v = a :: t ∧ isWsChar a = false := by
  rw [renderInt]
  split
  · exact ⟨'-', renderNat _, rfl, rfl⟩
  · obtain ⟨c, rest, hcr⟩ := List.exists_cons_of_ne_nil (renderNat_ne_nil v.toNat)
    have hd : isDigitChar c = true := by
      refine renderNat_digits v.toNat c ?_
      rw [hcr]
      exact List.mem_cons_self _ _
    exact ⟨c, rest, hcr, (digit_not_special c hd).1⟩

theorem renderInt_concat_ws (v : Int) :
    ∃ p d, renderInt v = p ++ [d] ∧ isWsChar d = false := by
  rw [renderInt]
  split
  · rcases List.eq_nil_or_concat (renderNat v.natAbs) with h | ⟨p, d, hpd⟩
    · exact absurd h (renderNat_ne_nil _)
    · rw [List.concat_eq_append] at hpd
      have hd : isDigitChar d = true := by
        refine renderNat_digits v.natAbs d ?_
        rw [hpd]
        exact List.mem_append_right _ (List.mem_singleton.2 rfl)
      exact ⟨'-' :: p, d, by rw [hpd]; rfl, (digit_not_special d hd).1⟩
  · rcases List.eq_nil_or_concat (renderNat v.toNat) with h | ⟨p, d, hpd⟩
    · exact absurd h (renderNat_ne_nil _)
    · rw [List.concat_eq_append] at hpd
      have hd : isDigitChar d = true := by
        refine renderNat_digits v.toNat d ?_
        rw [hpd]
        exact List.mem_append_right _ (List.mem_singleton.2 rfl)
      exact ⟨p, d, hpd, (digit_not_special d hd).1⟩

theorem trimChars_renderInt (v : Int) : trimChars (renderInt v) = renderInt v := by
  have := trimChars_eq [] (renderInt v) [] (by simp) (by simp)
    (renderInt_cons_form v) (renderInt_concat_ws v)
  simpa using this

theorem trimChars_space_renderInt (v : Int) :
    trimChars (' ' :: renderInt v) = renderInt v := by
  have := trimChars_eq [' '] (renderInt v) []
    (by
      intro x hx
      rw [List.mem_singleton] at hx
      rw [hx]
      rfl)
    (by simp) (renderInt_cons_form v) (renderInt_concat_ws v)
  simpa using this

theorem not_mem_entryInner (r c v : Int) (x : Char) (hdig : isDigitChar x = false)
    (hdash : x ≠ '-') (hcomma : x ≠ ',') (hspace : x ≠ ' ') :
    x ∉ entryInner r c v := by
  intro hx
  rw [entryInner] at hx
  rcases List.mem_append.1 hx with h | h
  · exact not_mem_renderInt r x hdig hdash h
  · rcases List.mem_cons.1 h with h | h
    · exact hcomma h
    rcases List.mem_cons.1 h with h | h
    · exact hspace h
    rcases List.mem_append.1 h with h | h
    · exact not_mem_renderInt c x hdig hdash h
    rcases List.mem_cons.1 h with h | h
    · exact hcomma h
    rcases List.mem_cons.1 h with h | h
    · exact hspace h
    · exact not_mem_renderInt v x hdig hdash h

theorem not_mem_entryLine_nl (r c v : Int) : '\n' ∉ entryLine r c v := by
  intro hx
  rw [entryLine] at hx
  rcases List.mem_cons.1 hx with h | h
  · exact absurd h (by decide)
  rcases List.mem_append.1 h with h | h
  · exact not_mem_entryInner r c v '\n' (by decide) (by decide) (by decide) (by decide) h
  · rw [List.mem_singleton] at h
    exact absurd h (by decide)

theorem not_mem_header_nl (pre : List Char) (v : Int) (hpre : '\n' ∉ pre) :
    '\n' ∉ pre ++ renderInt v := by
  intro hx
  rcases List.mem_append.1 hx with h | h
  · exact hpre h
  · exact not_mem_renderInt v '\n' (by decide) (by decide) h

/-- The lines `toString` writes: the two headers then one line per entry. -/
def lineList (M : SparseMatrix) : List (List Char) :=
  (rowsHdr ++ renderInt M.rows) :: (colsHdr ++ renderInt M.cols) ::
    M.elements.map (fun e => entryLine e.1.1 e.1.2 e.2)

theorem foldl_acc_append (es : List Entry) (init : List Char) :
    es.foldl (fun acc e => acc ++ entryLine e.1.1 e.1.2 e.2 ++ ['\n']) init
      = init ++ es.flatMap (fun e => entryLine e.1.1 e.1.2 e.2 ++ ['\n']) := by
  induction es generalizing init with
  | nil => simp
  | cons e es ih =>
    rw [List.foldl_cons, ih, List.flatMap_cons]
    simp

theorem lineList_concat_form (M : SparseMatrix) :
    ∀ l ∈ lineList M, ∃ p d, l = p ++ [d] ∧ isWsChar d = false := by
  intro l hl
  rw [lineList] at hl
  rcases List.mem_cons.1 hl with h | h
  · obtain ⟨p, d, hpd, hd⟩ := renderInt_concat_ws M.rows
    exact ⟨rowsHdr ++ p, d, by rw [h, hpd, List.append_assoc], hd⟩
  rcases List.mem_cons.1 h with h | h
  · obtain ⟨p, d, hpd, hd⟩ := renderInt_concat_ws M.cols
    exact ⟨colsHdr ++ p, d, by rw [h, hpd, List.append_assoc], hd⟩
  · obtain ⟨e, -, he⟩ := List.mem_map.1 h
    exact ⟨'(' :: entryInner e.1.1 e.1.2 e.2, ')', by rw [← he]; rfl, rfl⟩

theorem lineList_no_nl (M : SparseMatrix) : ∀ l ∈ lineList M, '\n' ∉ l := by
  intro l hl
  rw [lineList] at hl
  rcases List.mem_cons.1 hl with h | h
  · rw [h]
    exact not_mem_header_nl rowsHdr M.rows (by decide)
  rcases List.mem_cons.1 h with h | h
  · rw [h]
    exact not_mem_header_nl colsHdr M.cols (by decide)
  · obtain ⟨e, -, he⟩ := List.mem_map.1 h
    rw [← he]
    exact not_mem_entryLine_nl _ _ _

theorem toText_eq_joinNl (M : SparseMatrix) : M.toText = joinNl (lineList M) := by
  rw [SparseMatrix.toText, foldl_acc_append]
  have huntrim :
      (rowsHdr ++ renderInt M.rows ++ '\n' :: (colsHdr ++ renderInt M.cols ++ ['\n']))
        ++ M.elements.flatMap (fun e => entryLine e.1.1 e.1.2 e.2 ++ ['\n'])
      = joinNl (lineList M) ++ ['\n'] := by
    cases hes : M.elements with
    | nil =>
      rw [lineList, hes]
      show _ = joinNl [rowsHdr ++ renderInt M.rows, colsHdr ++ renderInt M.cols] ++ ['\n']
      show _ = ((rowsHdr ++ renderInt M.rows) ++ '\n' ::
        (colsHdr ++ renderInt M.cols)) ++ ['\n']
      simp
    | cons e es =>
      rw [lineList, hes]
      have hfm : (e :: es).flatMap (fun e => entryLine e.1.1 e.1.2 e.2 ++ ['\n'])
          = ((e :: es).map (fun e => entryLine e.1.1 e.1.2 e.2)).flatMap
              (fun l => l ++ ['\n']) := by
        rw [List.flatMap_map]
      rw [hfm, flatMap_nl_eq_joinNl _ (by simp)]
      show _ = ((rowsHdr ++ renderInt M.rows) ++ '\n' ::
        joinNl ((colsHdr ++ renderInt M.cols) ::
          (e :: es).map (fun e => entryLine e.1.1 e.1.2 e.2))) ++ ['\n']
      show _ = ((rowsHdr ++ renderInt M.rows) ++ '\n' ::
        ((colsHdr ++ renderInt M.cols) ++ '\n' ::
          joinNl ((e :: es).map (fun e => entryLine e.1.1 e.1.2 e.2)))) ++ ['\n']
      simp
  rw [huntrim]
  have h0 : ∃ a t, joinNl (lineList M) = a :: t ∧ isWsChar a = false :=
    ⟨'r', _, rfl, by decide⟩
  have h1 := joinNl_concat_form (lineList M) (by rw [lineList]; simp)
    (lineList_concat_form M)
  have := trimChars_eq [] (joinNl (lineList M)) ['\n'] (by simp)
    (by
      intro x hx
      rw [List.mem_singleton] at hx
      rw [hx]
      rfl)
    h0 h1
  simpa using this

theorem splitOn_toText (M : SparseMatrix) :
    splitOnChar '\n' M.toText = lineList M := by
  rw [toText_eq_joinNl]
  exact splitOnChar_joinNl _ (by rw [lineList]; simp) (lineList_no_nl M)

theorem parseHeaderVal_hdr (pre : List Char) (v : Int) (hpre : '=' ∉ pre) :
    parseHeaderVal (pre ++ '=' :: renderInt v) = some v := by
  rw [parseHeaderVal, splitOnChar_append _ _ _ hpre,
    splitOnChar_not_mem _ _ (not_mem_renderInt v '=' (by decide) (by decide))]
  show parseIntJs (renderInt v) = some v
  exact parseIntJs_renderInt v

theorem parseHeaderVal_rows (v : Int) :
    parseHeaderVal (rowsHdr ++ renderInt v) = some v :=
  parseHeaderVal_hdr ['r', 'o', 'w', 's'] v (by decide)

theorem parseHeaderVal_cols (v : Int) :
    parseHeaderVal (colsHdr ++ renderInt v) = some v :=
  parseHeaderVal_hdr ['c', 'o', 'l', 's'] v (by decide)

theorem trimChars_entryLine (r c v : Int) :
    trimChars (entryLine r c v) = entryLine r c v := by
  have := trimChars_eq [] (entryLine r c v) [] (by simp) (by simp)
    ⟨'(', entryInner r c v ++ [')'], rfl, rfl⟩
    ⟨'(' :: entryInner r c v, ')', rfl, rfl⟩
  simpa using this

theorem splitOn_entryInner (r c v : Int) :
    splitOnChar ',' (entryInner r c v) =
      [renderInt r, ' ' :: renderInt c, ' ' :: renderInt v] := by
  have hnc : ∀ w : Int, ',' ∉ ' ' :: renderInt w := by
    intro w hm
    rcases List.mem_cons.1 hm with h | h
    · exact absurd h (by decide)
    · exact not_mem_renderInt w ',' (by decide) (by decide) h
  rw [entryInner,
    splitOnChar_append _ _ _ (not_mem_renderInt r ',' (by decide) (by decide))]
  have h2 : (' ' :: (renderInt c ++ (',' :: ' ' :: renderInt v)))
      = (' ' :: renderInt c) ++ ',' :: (' ' :: renderInt v) := by simp
  rw [h2, splitOnChar_append _ _ _ (hnc c), splitOnChar_not_mem _ _ (hnc v)]

theorem parseEntryLine_entryLine (r c v : Int) :
    parseEntryLine (entryLine r c v) = .ok (some (r, c, v)) := by
  have hpre : ['('].isPrefixOf (entryLine r c v) = true := by
    rw [List.isPrefixOf_iff_prefix]
    exact ⟨entryInner r c v ++ [')'], rfl⟩
  have hsuf : [')'].isSuffixOf (entryLine r c v) = true := by
    rw [List.isSuffixOf_iff_suffix]
    exact ⟨'(' :: entryInner r c v, rfl⟩
  have hdl : ((entryLine r c v).drop 1).dropLast = entryInner r c v := by
    show (entryInner r c v ++ [')']).dropLast = entryInner r c v
    simp
  simp only [parseEntryLine, trimChars_entryLine,
    show (entryLine r c v).isEmpty = false from rfl,
    Bool.false_eq_true, if_false, hpre, hsuf, and_self, if_true]
  rw [hdl, splitOn_entryInner, List.map_cons, List.map_cons, List.map_cons,
    List.map_nil, trimChars_renderInt, trimChars_space_renderInt,
    trimChars_space_renderInt]
  simp only [parseIntJs_renderInt]

theorem loadLines_entries (r c : Int) (rest : List Entry) :
    ∀ acc : List Entry, (∀ e ∈ rest, e.2 ≠ 0) →
    (∀ e ∈ rest, alGet acc e.1 = none) →
    (rest.map Prod.fst).Nodup →
    SparseMatrix.loadLines { rows := r, cols := c, elements := acc }
      (rest.map (fun e => entryLine e.1.1 e.1.2 e.2)) =
      .ok { rows := r, cols := c, elements := acc ++ rest } := by
  induction rest with
  | nil =>
    intro acc _ _ _
    simp [SparseMatrix.loadLines]
  | cons e rest ih =>
    intro acc hv hfresh hnd
    rw [List.map_cons, SparseMatrix.loadLines, parseEntryLine_entryLine]
    have hv0 : e.2 ≠ 0 := hv e (List.mem_cons_self _ _)
    have halset : alSet acc (e.1.1, e.1.2) e.2 = acc ++ [e] :=
      alSet_of_alGet_none acc (e.1.1, e.1.2) e.2 (hfresh e (List.mem_cons_self _ _))
    have hset : SparseMatrix.setElement { rows := r, cols := c, elements := acc }
        e.1.1 e.1.2 e.2 = { rows := r, cols := c, elements := acc ++ [e] } := by
      rw [SparseMatrix.setElement, if_pos hv0]
      show ({ rows := r, cols := c, elements := alSet acc (e.1.1, e.1.2) e.2 }
        : SparseMatrix) = _
      rw [halset]
    show SparseMatrix.loadLines (SparseMatrix.setElement
      { rows := r, cols := c, elements := acc } e.1.1 e.1.2 e.2)
      (rest.map (fun e => entryLine e.1.1 e.1.2 e.2)) =
      Except.ok { rows := r, cols := c, elements := acc ++ e :: rest }
    rw [hset]
    rw [List.map_cons] at hnd
    rw [List.nodup_cons] at hnd
    have hfresh2 : ∀ e2 ∈ rest, alGet (acc ++ [e]) e2.1 = none := by
      intro e2 he2
      have h1 : alGet acc e2.1 = none := hfresh e2 (List.mem_cons_of_mem _ he2)
      have hne : e.1 ≠ e2.1 := by
        intro heq
        exact hnd.1 (heq ▸ List.mem_map_of_mem Prod.fst he2)
      rw [alGet_append_none _ _ _ h1, alGet, if_neg hne]
      rfl
    rw [ih (acc ++ [e]) (fun e2 he2 => hv e2 (List.mem_cons_of_mem _ he2)) hfresh2 hnd.2]
    have hrea : (acc ++ [e]) ++ rest = acc ++ e :: rest := by simp
    rw [hrea]

/-- Claim C8: serializing a well-formed matrix with `toString` and loading the
text back reproduces the matrix exactly: equal `rows`, equal `cols`, and the
very same entry list (hence the same entry set). -/
theorem claim_C8_roundtrip (M : SparseMatrix) (hnd : KeysNodup M)
    (hv : ValuesNonzero M) : SparseMatrix.loadText M.toText = .ok M := by
  have hpre1 : rowsHdr.isPrefixOf (rowsHdr ++ renderInt M.rows) = true := by
    rw [List.isPrefixOf_iff_prefix]
    exact List.prefix_append _ _
  have hpre2 : colsHdr.isPrefixOf (colsHdr ++ renderInt M.cols) = true := by
    rw [List.isPrefixOf_iff_prefix]
    exact List.prefix_append _ _
  rw [SparseMatrix.loadText, splitOn_toText, lineList]
  show (if rowsHdr.isPrefixOf (rowsHdr ++ renderInt M.rows)
      ∧ colsHdr.isPrefixOf (colsHdr ++ renderInt M.cols) then _ else _) = _
  rw [if_pos ⟨hpre1, hpre2⟩, parseHeaderVal_rows, parseHeaderVal_cols]
  show SparseMatrix.loadLines { rows := M.rows, cols := M.cols, elements := [] }
    (M.elements.map (fun e => entryLine e.1.1 e.1.2 e.2)) = _
  rw [loadLines_entries M.rows M.cols M.elements [] hv (fun _ _ => rfl) hnd]
  rfl

/-- Claim C8 (witness): the round trip at the concrete scenario matrix. -/
theorem claim_C8_witness : SparseMatrix.loadText (SparseMatrix.toText exA) = .ok exA :=
  claim_C8_roundtrip exA (by decide) (by decide)

end SpMat

